import Mathlib

set_option maxRecDepth 8192

namespace PyTables

/-!
Shallow embedding of the PyTables sorted-index core (`tables/index.py`).

Value types are modelled as follows: integer dtypes by `Int` together with a
`NumDtype` tag giving the source's `infinityMap` bounds table; fixed-width
byte strings by `List Nat` (one entry per byte, most significant first, so
that the source language's byte-string comparison is lexicographic order on
the list); IEEE binary64 doubles by the exact rational value of the double,
with the source language's float addition modelled by exact rational addition
followed by round-to-nearest-even (`fl`).
-/

/-- Numeric dtypes appearing in the source's `infinityMap` table. -/
inductive NumDtype
  | bool
  | int8
  | uint8
  | int16
  | uint16
  | int32
  | uint32
  | int64
  | uint64
deriving DecidableEq

/-- Source `infinityMap`: the (negative, positive) representational infinity of
each numeric dtype, copied entry by entry from `index.py`. -/
def infinityMap : NumDtype → Int × Int
  | NumDtype.bool => (0, 1)
  | NumDtype.int8 => (-(2 ^ 7), 2 ^ 7 - 1)
  | NumDtype.uint8 => (0, 2 ^ 8 - 1)
  | NumDtype.int16 => (-(2 ^ 15), 2 ^ 15 - 1)
  | NumDtype.uint16 => (0, 2 ^ 16 - 1)
  | NumDtype.int32 => (-(2 ^ 31), 2 ^ 31 - 1)
  | NumDtype.uint32 => (0, 2 ^ 32 - 1)
  | NumDtype.int64 => (-(2 ^ 63), 2 ^ 63 - 1)
  | NumDtype.uint64 => (0, 2 ^ 64 - 1)

/-- Source `infType` for a byte-string dtype (`dtype.kind == "S"`): all-zero
bytes for the negative sign, all-0xff bytes for the positive sign. -/
def infTypeStr (itemsize : ℕ) (sign : Int) : List ℕ :=
  if sign < 0 then List.replicate itemsize 0 else List.replicate itemsize 255

/-- Source `infType` for a numeric dtype: `infinityMap[dtype.name][sign >= 0]`. -/
def infTypeNum (dtype : NumDtype) (sign : Int) : Int :=
  if 0 ≤ sign then (infinityMap dtype).2 else (infinityMap dtype).1

/-- Source `IntTypeNextAfter`, integer branch (`type(x) is int`): the float
branch only applies to float-valued limits queried against an integer column
and is not part of the integer-value claims. -/
def IntTypeNextAfter (x : Int) (direction : Int) : Int :=
  if direction < 0 then x - 1 else x + 1

/-- Source `nextafter` dispatch for an integer dtype (`dtype.kind in "iu"`). -/
def nextafterInt (x : Int) (direction : Int) : Int :=
  if direction = 0 then x else IntTypeNextAfter x direction

/-- Body of the `direction > 0` walk of source `StringNextAfter`: the walk runs
over the reversed padded byte list and turns every leading 0xff byte into 0x00
until it can increment a byte below 0xff. -/
def incBytes : List ℕ → List ℕ
  | [] => []
  | b :: rest => if b < 255 then (b + 1) :: rest else 0 :: incBytes rest

/-- Body of the `direction < 0` walk of source `StringNextAfter`: the walk runs
over the reversed padded byte list and turns every leading 0x00 byte into 0xff
until it can decrement a byte above 0x00. -/
def decBytes : List ℕ → List ℕ
  | [] => []
  | b :: rest => if 0 < b then (b - 1) :: rest else 255 :: decBytes rest

/-- Right-padding of a byte string with 0x00 bytes up to `itemsize`, as done at
the start of source `StringNextAfter`. -/
def pad (x : List ℕ) (itemsize : ℕ) : List ℕ :=
  x ++ List.replicate (itemsize - x.length) 0

/-- Source `StringNextAfter`. The source guards the walk with
`if xlist == "\xff"*itemsize` (and the 0x00 analogue), but `xlist` is a list
of characters and the right-hand side a string, and in the source language a
list never equals a string, so both saturation guards are dead code and the
byte walk below is what always executes (wrapping around at the extremes). -/
def StringNextAfter (x : List ℕ) (direction : Int) (itemsize : ℕ) : List ℕ :=
  if 0 < direction then (incBytes (pad x itemsize).reverse).reverse
  else (decBytes (pad x itemsize).reverse).reverse

/-- Source `nextafter` dispatch for a byte-string dtype (`dtype.kind == "S"`). -/
def nextafterStr (x : List ℕ) (direction : Int) (itemsize : ℕ) : List ℕ :=
  if direction = 0 then x else StringNextAfter x direction itemsize

/-- Source constant `epsilon = math.ldexp(1.0, -53)`. -/
def epsilon : ℚ := 1 / 2 ^ 53

/-- Source constant `minFloat = math.ldexp(1.0, -1022)`. -/
def minFloat : ℚ := 1 / 2 ^ 1022

/-- Source constant `smallEpsilon = math.ldexp(1.0, -1074)`. -/
def smallEpsilon : ℚ := 1 / 2 ^ 1074

/-- Source constant `maxFloat = float(2**1024 - 2**971)`, the largest finite
binary64 value. -/
def maxFloat : ℚ := 2 ^ 1024 - 2 ^ 971

/-- Source constant `infinity = math.ldexp(1.0, 1023) * 2`, which overflows to
IEEE positive infinity; the model uses the rational 2 ^ 1024, which is larger
than every finite binary64 value, so the comparisons `x >= infinity` and
`x <= -infinity` hold exactly for the values whose double is infinite. -/
def infinity : ℚ := 2 ^ 1024

/-- Fuel-driven floor of the base-2 logarithm on naturals (helper for the
binade computation of the binary64 rounding model). -/
def log2floorAux : ℕ → ℕ → ℕ
  | 0, _ => 0
  | fuel + 1, n => if n ≤ 1 then 0 else log2floorAux fuel (n / 2) + 1

/-- Floor of the base-2 logarithm (0 at 0 and 1). -/
def log2floor (n : ℕ) : ℕ :=
  log2floorAux n n

/-- The rational 2 ^ k for an integer exponent k. -/
def qpow2 (k : ℤ) : ℚ :=
  if 0 ≤ k then (2 : ℚ) ^ k.toNat else ((2 : ℚ) ^ (-k).toNat)⁻¹

/-- Largest integer k with 2 ^ k ≤ q, for a positive rational q (helper for
the binary64 rounding model). -/
def binade (q : ℚ) : ℤ :=
  if qpow2 ((log2floor q.num.toNat : ℤ) - (log2floor q.den : ℤ)) ≤ q then
    (log2floor q.num.toNat : ℤ) - (log2floor q.den : ℤ)
  else
    (log2floor q.num.toNat : ℤ) - (log2floor q.den : ℤ) - 1

/-- Exponent part of `math.frexp`: the e with x = m * 2 ^ e and 1/2 ≤ |m| < 1
(0 at 0). -/
def frexpE (x : ℚ) : ℤ :=
  if x = 0 then 0 else binade (if x < 0 then -x else x) + 1

/-- Mantissa part of `math.frexp`. -/
def frexpM (x : ℚ) : ℚ :=
  if x = 0 then 0 else x / qpow2 (frexpE x)

/-- Round a rational to the nearest integer, ties to even (the IEEE-754
default rounding used by the source language's float arithmetic). -/
def rne (x : ℚ) : ℤ :=
  if x - ⌊x⌋ < 1 / 2 then ⌊x⌋
  else if (1 : ℚ) / 2 < x - ⌊x⌋ then ⌊x⌋ + 1
  else if 2 ∣ ⌊x⌋ then ⌊x⌋ else ⌊x⌋ + 1

/-- Round a rational to the nearest IEEE binary64 value (round to nearest,
ties to even, subnormals below 2 ^ (-1022), overflow to the infinity
sentinel). This models the rounding step of the source language's float
addition `x + 1` and `x - 1` inside `nextafter`. -/
def fl (x : ℚ) : ℚ :=
  if x = 0 then 0
  else
    if (rne (x / qpow2 (max (binade (if x < 0 then -x else x) - 52) (-1074))) : ℚ) *
        qpow2 (max (binade (if x < 0 then -x else x) - 52) (-1074)) ≥ infinity then infinity
    else if (rne (x / qpow2 (max (binade (if x < 0 then -x else x) - 52) (-1074))) : ℚ) *
        qpow2 (max (binade (if x < 0 then -x else x) - 52) (-1074)) ≤ -infinity then -infinity
    else (rne (x / qpow2 (max (binade (if x < 0 then -x else x) - 52) (-1074))) : ℚ) *
        qpow2 (max (binade (if x < 0 then -x else x) - 52) (-1074))

/-- Source `PyNextAfter` on binary64 values (exact rational carrier). The
source first returns x when x or y is NaN; NaN has no rational representative,
so the model covers the non-NaN doubles, which are the only values the index
stores. On representable doubles every arithmetic step of the source body
(`x ± smallEpsilon`, `m ± epsilon`, `ldexp`) is exact, so plain rational
arithmetic is the faithful translation. -/
def PyNextAfter (x y : ℚ) : ℚ :=
  if x = y then x
  else if x ≥ infinity then x
  else if x ≤ -infinity then x
  else if -minFloat < x ∧ x < minFloat then
    if y > x then x + smallEpsilon else x - smallEpsilon
  else if y > x then (frexpM x + epsilon) * qpow2 (frexpE x)
  else (frexpM x - epsilon) * qpow2 (frexpE x)

/-- Source `nextafter` dispatch for the float64 dtype:
`PyNextAfter(x, x - 1)` or `PyNextAfter(x, x + 1)`, where `x - 1` and `x + 1`
are computed in binary64 arithmetic (exact sum followed by `fl`). -/
def nextafterF64 (x : ℚ) (direction : Int) : ℚ :=
  if direction = 0 then x
  else if direction < 0 then PyNextAfter x (fl (x - 1))
  else PyNextAfter x (fl (x + 1))

/-- Operator tokens accepted by source `Index.getLookupRange`. -/
inductive Op
  | lt
  | le
  | eq
  | ge
  | gt
deriving DecidableEq

/-- Result of source `Index.getLookupRange`: `badQuery` models a failed
`assert` on the operator/limit lists, `emptyTuple` the `return ()` of a
two-sided query with crossed limits, and `closed lo hi` the returned
`range_` pair. -/
inductive LookupRange (α : Type)
  | badQuery
  | emptyTuple
  | closed (lo hi : α)
deriving DecidableEq

/-- Source `Index.getLookupRange`, generic over the column dtype: `na x d`
stands for `nextafter(x, d, coldtype, itemsize)` and `inf s` for
`infType(coldtype, itemsize, sign=s)`, the dtype dispatch happening in those
two functions exactly as in the source. The final catch-all arm of the
two-sided match is unreachable because the operator assertion has already
been checked. -/
def getLookupRange {α : Type} [LinearOrder α] (na : α → Int → α) (inf : Int → α)
    (ops : List Op) (limits : List α) : LookupRange α :=
  match ops, limits with
  | [op], [limit] =>
    match op with
    | Op.lt => LookupRange.closed (inf (-1)) (na limit (-1))
    | Op.le => LookupRange.closed (inf (-1)) limit
    | Op.gt => LookupRange.closed (na limit 1) (inf 1)
    | Op.ge => LookupRange.closed limit (inf 1)
    | Op.eq => LookupRange.closed limit limit
  | [op0, op1], [lower, upper] =>
    if (op0 = Op.gt ∨ op0 = Op.ge) ∧ (op1 = Op.lt ∨ op1 = Op.le) then
      if upper < lower then LookupRange.emptyTuple
      else
        match op0, op1 with
        | Op.gt, Op.lt => LookupRange.closed (na lower 1) (na upper (-1))
        | Op.ge, Op.lt => LookupRange.closed lower (na upper (-1))
        | Op.gt, Op.le => LookupRange.closed (na lower 1) upper
        | Op.ge, Op.le => LookupRange.closed lower upper
        | _, _ => LookupRange.badQuery
    else LookupRange.badQuery
  | _, _ => LookupRange.badQuery

/-- Well-formed argument shape of `getLookupRange`, following the spec's
words: one operator with one limit, or one lower operator (`gt`/`ge`) and one
upper operator (`lt`/`le`) with two limits. Used to state that `BadQuery` is
reserved for malformed operator sets. -/
def wellFormedQuery {α : Type} (ops : List Op) (limits : List α) : Prop :=
  (∃ op a, ops = [op] ∧ limits = [a]) ∨
    (∃ op0 op1 a b, ops = [op0, op1] ∧ limits = [a, b] ∧
      (op0 = Op.gt ∨ op0 = Op.ge) ∧ (op1 = Op.lt ∨ op1 = Op.le))

/-- Stable ascending sort of a slice: the model of `arr[arr.argsort()]`
(the source's argsort is a stable sort by value). -/
def sortAsc {α : Type} [LinearOrder α] (arr : List α) : List α :=
  arr.insertionSort (· ≤ ·)

/-- Python strided slice `arr[start::step]`: the elements at positions
start, start + step, start + 2·step, … below `arr.length`. -/
def pyStride {α : Type} [Inhabited α] (arr : List α) (start step : ℕ) : List α :=
  (List.range ((arr.length - start + step - 1) / step)).map
    fun j => arr.getD (start + j * step) default

/-- Python slice assignment `l[start : start + vals.length] = vals`
(used in bounds in the source only with the segment fully in range). -/
def setSeg {α : Type} (l : List α) (start : ℕ) (vals : List α) : List α :=
  l.take start ++ vals ++ l.drop (start + vals.length)

/-- State of one `Index` node: the persistent arrays the claims are about
(the reverse `indices`/`indicesLR` arrays carry no claim here and are left
out), plus the derived scalars. `sortedLR` holds the meaningful prefix
`bebounds ++ sorted last-row values` of the fixed-size last-row array. -/
structure IdxState (α : Type) where
  sorted : List (List α)
  ranges : List (α × α)
  bounds : List (List α)
  abounds : List α
  zbounds : List α
  mbounds : List α
  mranges : List α
  sortedLR : List α
  nrows : ℕ
  nelements : ℕ
  nelementsLR : ℕ
deriving DecidableEq

/-- A freshly created index: no slices, no elements. -/
def emptyIndex {α : Type} : IdxState α :=
  { sorted := [], ranges := [], bounds := [], abounds := [], zbounds := [],
    mbounds := [], mranges := [], sortedLR := [], nrows := 0, nelements := 0,
    nelementsLR := 0 }

/-- Source `Index.append` for one full slice. The index parameters are the
chunk size `cs = chunksize` and chunk count `ncs = nchunkslice`, with
`slicesize = cs * ncs`. Following the source body: the incoming array is
sorted, one row is appended to `sorted`, and the derived rows are appended to
`ranges` (`arr[[0,-1]]`), `bounds` (`arr[cs::cs]`), `abounds` (`arr[0::cs]`),
`zbounds` (`arr[cs-1::cs]`), `mbounds` (`smedian = arr[cs/2::cs]`) and
`mranges` (`smedian[ncs/2]`); then `nrows = sorted.nrows`,
`nelements = nrows * slicesize` and `nelementsLR = 0`. -/
def append {α : Type} [LinearOrder α] [Inhabited α] (cs ncs : ℕ)
    (st : IdxState α) (arr0 : List α) : IdxState α :=
  let arr := sortAsc arr0
  { sorted := st.sorted ++ [arr]
    ranges := st.ranges ++ [(arr.getD 0 default, arr.getD (arr.length - 1) default)]
    bounds := st.bounds ++ [pyStride arr cs cs]
    abounds := st.abounds ++ pyStride arr 0 cs
    zbounds := st.zbounds ++ pyStride arr (cs - 1) cs
    mbounds := st.mbounds ++ pyStride arr (cs / 2) cs
    mranges := st.mranges ++ [(pyStride arr (cs / 2) cs).getD (ncs / 2) default]
    sortedLR := st.sortedLR
    nrows := st.sorted.length + 1
    nelements := (st.sorted.length + 1) * (cs * ncs)
    nelementsLR := 0 }

/-- Source `Index.appendLastRow` for a trailing partial slice: the array is
sorted, `bebounds = concatenate(arr[::cs], [arr[-1]])` is cached at the head
of `sortedLR` followed by the sorted values, and the derived scalars become
`nrows = sorted.nrows + 1`, `nelements = sorted.nrows * slicesize +
nelementsLR`, `nelementsLR = len(arr)` (the source asserts
`tnrows - offset == len(arr)`). -/
def appendLastRow {α : Type} [LinearOrder α] [Inhabited α] (cs ncs : ℕ)
    (st : IdxState α) (arr0 : List α) : IdxState α :=
  let arr := sortAsc arr0
  { st with
    sortedLR := (pyStride arr 0 cs ++ [arr.getD (arr.length - 1) default]) ++ arr
    nrows := st.sorted.length + 1
    nelements := st.sorted.length * (cs * ncs) + arr0.length
    nelementsLR := arr0.length }

/-- Body of the per-slice loop of source `Index.reorder_slices` (the step the
optimizer runs for every slice it rewrites): `blk0` is `tmp_sorted[nslice]`,
the chunk-permuted content that `swap_chunks` staged in the scratch file; the
slice is re-sorted and every derived array is rewritten for that slice with
exactly the `append` formulas. -/
def reorder_slice {α : Type} [LinearOrder α] [Inhabited α] (cs ncs : ℕ)
    (st : IdxState α) (nslice : ℕ) (blk0 : List α) : IdxState α :=
  let block := sortAsc blk0
  { st with
    sorted := st.sorted.set nslice block
    ranges := st.ranges.set nslice
      (block.getD 0 default, block.getD (block.length - 1) default)
    bounds := st.bounds.set nslice (pyStride block cs cs)
    abounds := setSeg st.abounds (nslice * ncs) (pyStride block 0 cs)
    zbounds := setSeg st.zbounds (nslice * ncs) (pyStride block (cs - 1) cs)
    mbounds := setSeg st.mbounds (nslice * ncs) (pyStride block (cs / 2) cs)
    mranges := st.mranges.set nslice
      ((pyStride block (cs / 2) cs).getD (ncs / 2) default) }

/-- States of an index reachable through the mutating operations: full-slice
appends, last-row appends, and the per-slice rewrite step of the optimizer
(whose staged content `blk0` is an arbitrary slice-sized array, which
over-approximates every chunk permutation `swap_chunks` can stage). -/
inductive Reachable {α : Type} [LinearOrder α] [Inhabited α]
    (cs ncs : ℕ) : IdxState α → Prop
  | init : Reachable cs ncs emptyIndex
  | append_full (st : IdxState α) (arr : List α) :
      Reachable cs ncs st → arr.length = cs * ncs →
      Reachable cs ncs (append cs ncs st arr)
  | append_last (st : IdxState α) (arr : List α) :
      Reachable cs ncs st → 0 < arr.length → arr.length ≤ cs * ncs →
      Reachable cs ncs (appendLastRow cs ncs st arr)
  | reorder (st : IdxState α) (nslice : ℕ) (blk0 : List α) :
      Reachable cs ncs st → nslice < st.sorted.length →
      blk0.length = cs * ncs →
      Reachable cs ncs (reorder_slice cs ncs st nslice blk0)

/-- Bounds reference used by a swap phase of the optimizer. -/
inductive SwapMode
  | start
  | stop
  | median
deriving DecidableEq

/-- One call of source `Index.swap`: temporary creation, a chunk swap, or a
slice swap. -/
inductive SwapCall
  | create
  | chunks (mode : SwapMode)
  | slices (mode : SwapMode)
deriving DecidableEq

/-- The sequence of `swap` calls source `Index.optimize` would issue for the
given optimization flags if no call hit a termination threshold, copied from
the source's `while True` block: temporaries first, then for `optfull` the
median chunk swap, the slice swap and second median chunk swap (only when the
index spans more than one block), and the start and stop chunk swaps;
otherwise the enabled single phases in median, start, stop order. -/
def plannedSwaps (nblocks : ℕ)
    (optmedian optstarts optstops optfull : Bool) : List SwapCall :=
  if optmedian || optstarts || optstops || optfull then
    SwapCall.create ::
      (if optfull then
        [SwapCall.chunks SwapMode.median] ++
          (if 1 < nblocks then
            [SwapCall.slices SwapMode.median, SwapCall.chunks SwapMode.median]
          else []) ++
          [SwapCall.chunks SwapMode.start, SwapCall.chunks SwapMode.stop]
      else
        (if optmedian then [SwapCall.chunks SwapMode.median] else []) ++
          (if optstarts then [SwapCall.chunks SwapMode.start] else []) ++
          (if optstops then [SwapCall.chunks SwapMode.stop] else []))
  else []

/-- Run the planned swap calls in order; `halts k` tells whether the k-th
executed call returns `True` (a termination threshold of `Index.swap` was
met, breaking out of the optimization loop). -/
def runSwaps : List SwapCall → ℕ → (ℕ → Bool) → List SwapCall
  | [], _, _ => []
  | c :: rest, k, halts =>
    if halts k then [c] else c :: runSwaps rest (k + 1) halts

/-- The optimization-flag tuple (optmedian, optstarts, optstops, optfull)
source `Index.optimize` derives from a numeric level. -/
def optLevelFlags (level : ℕ) : Bool × Bool × Bool × Bool :=
  if 3 ≤ level ∧ level < 6 then (false, true, false, false)
  else if 6 ≤ level ∧ level < 9 then (false, true, true, false)
  else if level = 9 then (false, false, false, true)
  else (false, false, false, false)

/-- Source `Index.optimize`, modelled by the sequence of `swap` calls it
executes: nothing at all when the index has at most one complete slice; the
flags come from the level (or from the stored `reord_opts` when the level is
`none`), and the planned calls run until one of them meets a termination
threshold (`halts`). -/
def optimize (nslices nblocks : ℕ) (level : Option ℕ)
    (reord_opts : Bool × Bool × Bool × Bool) (halts : ℕ → Bool) :
    List SwapCall :=
  if nslices ≤ 1 then []
  else
    runSwaps
      (plannedSwaps nblocks
        (match level with | some l => optLevelFlags l | none => reord_opts).1
        (match level with | some l => optLevelFlags l | none => reord_opts).2.1
        (match level with | some l => optLevelFlags l | none => reord_opts).2.2.1
        (match level with | some l => optLevelFlags l | none => reord_opts).2.2.2)
      0 halts

/-- Observable effects of one `Index.search` call on the data structures the
claims talk about: a lookup in the limits cache, a typed whole-array binary
search, a per-slice binary search in `sorted`, or a chunk read from the
last-row array. -/
inductive SearchEv
  | cacheSlotLookup
  | typedBinSearch
  | scalarBinSearch (slice : ℕ)
  | lastRowChunkRead
deriving DecidableEq

/-- External collaborators of `Index.search` that are not part of the source
under review. Modelled from the spec: `getslot` is the bounded limits cache
(`lrucacheExtension.ObjectCache`, `none` on a miss), `searchBinNA` the typed
per-slice binary search of the extension module (per-slice (start, stop)
pairs), `searchBin` the per-slice `sorted._searchBin`, `readSortedSliceLR`
the chunk reader `sortedLR._readSortedSlice`, and `couldenablecache` the
cache admission heuristic. -/
structure SearchOracle (α : Type) where
  getslot : List α → Option (List (ℕ × ℕ × ℕ))
  searchBinNA : α → α → List (ℕ × ℕ)
  searchBin : ℕ → List α → ℕ × ℕ
  readSortedSliceLR : ℕ → ℕ → List α
  couldenablecache : Bool

/-- The slice of index state `Index.search` reads: the dirty-cache flag, the
`starts`/`lengths` scratch arrays with `nrows` entries, whether the column
dtype has a typed fast path (float64/int32/int64), the number of full sorted
slices, the last-row fill and chunk size, and the cached `bebounds`. -/
structure SearchState (α : Type) where
  dirtycache : Bool
  nrows : ℕ
  starts : List ℕ
  lengths : List ℕ
  typedFastPath : Bool
  sortedNrows : ℕ
  nelementsLR : ℕ
  chunksize : ℕ
  bebounds : List α

/-- Result of one `Index.search` call: the returned total count, the updated
`starts` and `lengths` arrays, and the trace of observable effects. -/
structure SearchOut (α : Type) where
  tlen : ℕ
  starts : List ℕ
  lengths : List ℕ
  events : List SearchEv

/-- Modelled from the spec: Python `bisect.bisect_left(a, x, lo, hi)` on the
ascending lists used by `searchLastRow` returns the leftmost insertion point,
i.e. `lo` plus the number of entries of `a[lo:hi]` below `x`. -/
def bisect_left {α : Type} [LinearOrder α] (a : List α) (x : α) (lo hi : ℕ) : ℕ :=
  lo + (((a.take hi).drop lo).filter fun y => decide (y < x)).length

/-- Modelled from the spec: Python `bisect.bisect_right(a, x, lo, hi)` on the
ascending lists used by `searchLastRow` returns the rightmost insertion
point, i.e. `lo` plus the number of entries of `a[lo:hi]` not above `x`. -/
def bisect_right {α : Type} [LinearOrder α] (a : List α) (x : α) (lo hi : ℕ) : ℕ :=
  lo + (((a.take hi).drop lo).filter fun y => decide (y ≤ x)).length

/-- Source `Index.searchLastRow`, returning the (start, stop) pair inside the
last-row values together with the chunk reads it performs. The mutable flags
`item1done`/`item2done` and the shared `chunk`/`hi2` variables of the source
are translated branch by branch: the begin/end short-circuits first, then the
chunk lookup for item1 (when still needed), then the chunk lookup for item2,
re-reading a chunk only when `nchunk2 != nchunk` exactly as the source does. -/
def searchLastRow {α : Type} [LinearOrder α] [Inhabited α]
    (orc : SearchOracle α) (st : SearchState α) (item1 item2 : α) :
    (ℕ × ℕ) × List SearchEv :=
  let hi := st.nelementsLR
  let bb := st.bebounds
  let begin0 := bb.getD 0 default
  if item1 ≤ begin0 ∧ item2 < begin0 then ((0, 0), [])
  else
    let end0 := bb.getD (bb.length - 1) default
    let d1 := item1 ≤ begin0 ∨ end0 < item1
    let d2 := item2 < begin0 ∨ end0 ≤ item2
    let r1early := if item1 ≤ begin0 then 0 else hi
    let r2early := if item2 < begin0 then 0 else hi
    if d1 ∧ d2 then ((r1early, r2early), [])
    else
      let bounds := (bb.drop 1).take (bb.length - 2)
      let nbounds := bb.length
      let cs := st.chunksize
      if d1 then
        -- item1 already resolved: nchunk stays -1, so the item2 lookup
        -- always reads its own chunk, with hi2 starting from hi
        let nchunk2 := bisect_right bounds item2 0 bounds.length
        let end2 := if cs * (nchunk2 + 1) > hi then hi else cs * (nchunk2 + 1)
        let chunk := orc.readSortedSliceLR (nbounds + cs * nchunk2) (nbounds + end2)
        let hi2 := if chunk.length < hi then chunk.length else hi
        ((r1early, bisect_right chunk item2 0 hi2 + cs * nchunk2),
          [SearchEv.lastRowChunkRead])
      else
        let nchunk := bisect_left bounds item1 0 bounds.length
        let end1 := if cs * (nchunk + 1) > hi then hi else cs * (nchunk + 1)
        let chunk1 := orc.readSortedSliceLR (nbounds + cs * nchunk) (nbounds + end1)
        let hi2a := if chunk1.length < hi then chunk1.length else hi
        let r1 := bisect_left chunk1 item1 0 hi2a + cs * nchunk
        if d2 then ((r1, r2early), [SearchEv.lastRowChunkRead])
        else
          let nchunk2 := bisect_right bounds item2 0 bounds.length
          if nchunk2 = nchunk then
            ((r1, bisect_right chunk1 item2 0 hi2a + cs * nchunk2),
              [SearchEv.lastRowChunkRead])
          else
            let end2 := if cs * (nchunk2 + 1) > hi then hi else cs * (nchunk2 + 1)
            let chunk2 := orc.readSortedSliceLR (nbounds + cs * nchunk2) (nbounds + end2)
            let hi2b := if chunk2.length < hi then chunk2.length else hi2a
            ((r1, bisect_right chunk2 item2 0 hi2b + cs * nchunk2),
              [SearchEv.lastRowChunkRead, SearchEv.lastRowChunkRead])

/-- Source `Index.search_scalar`: per-slice binary search over every full
sorted slice, writing `starts[i]` and `lengths[i] = stop - start` and summing
the lengths. -/
def search_scalar {α : Type} [LinearOrder α] (orc : SearchOracle α)
    (nr : ℕ) (item : List α) (starts lengths : List ℕ) :
    ℕ × List ℕ × List ℕ × List SearchEv :=
  (List.range nr).foldl
    (fun acc i =>
      let p := orc.searchBin i item
      (acc.1 + (p.2 - p.1), acc.2.1.set i p.1, acc.2.2.1.set i (p.2 - p.1),
        acc.2.2.2 ++ [SearchEv.scalarBinSearch i]))
    (0, starts, lengths, [])

/-- The typed fast path of source `Index.search`
(`sorted._searchBinNA_d/_i/_ll`): one extension call that performs the same
per-slice lower/upper binary searches in compiled code and fills
`starts`/`lengths`; modelled by applying the oracle's per-slice
(start, stop) answers. -/
def searchBinNAFill (res : List (ℕ × ℕ)) (nr : ℕ) (starts lengths : List ℕ) :
    ℕ × List ℕ × List ℕ :=
  (List.range nr).foldl
    (fun acc i =>
      let p := res.getD i (0, 0)
      (acc.1 + (p.2 - p.1), acc.2.1.set i p.1, acc.2.2.set i (p.2 - p.1)))
    (0, starts, lengths)

/-- Source `Index.search`. `restorecache` runs first when the cache is dirty
(fresh empty limits cache — hence the later `getslot` necessarily misses —
and reallocated `starts`/`lengths` arrays of `nrows` entries; `numpy.empty`
leaves them uninitialized, modelled as zero-filled since every entry written
before being read). Then the empty-item short-circuit, the limits-cache
lookup, the per-slice search over `sorted`, the last-row search, and the
cache insertion, following the source line by line. -/
def search {α : Type} [LinearOrder α] [Inhabited α] (orc : SearchOracle α)
    (st : SearchState α) (item : List α) : SearchOut α :=
  let starts0 := if st.dirtycache then List.replicate st.nrows 0 else st.starts
  let lengths0 := if st.dirtycache then List.replicate st.nrows 0 else st.lengths
  if item.isEmpty then
    { tlen := 0, starts := List.replicate starts0.length 0,
      lengths := List.replicate lengths0.length 0, events := [] }
  else
    match (if st.dirtycache then none else orc.getslot item) with
    | some startlengths =>
      let r := startlengths.foldl
        (fun acc t =>
          (acc.1.set t.1 t.2.1, acc.2.1.set t.1 t.2.2, acc.2.2 + t.2.2))
        (starts0, List.replicate lengths0.length 0, 0)
      { tlen := r.2.2, starts := r.1, lengths := r.2.1,
        events := [SearchEv.cacheSlotLookup] }
    | none =>
      let main :=
        if 0 < st.sortedNrows then
          if st.typedFastPath then
            match item with
            | [item1, item2] =>
              let r := searchBinNAFill (orc.searchBinNA item1 item2)
                st.sortedNrows starts0 lengths0
              (r.1, r.2.1, r.2.2, [SearchEv.typedBinSearch])
            | _ => search_scalar orc st.sortedNrows item starts0 lengths0
          else search_scalar orc st.sortedNrows item starts0 lengths0
        else (0, starts0, lengths0, [])
      let withLR :=
        if 0 < st.nelementsLR then
          match item with
          | [item1, item2] =>
            let lr := searchLastRow orc st item1 item2
            (main.1 + (lr.1.2 - lr.1.1),
              main.2.1.set (main.2.1.length - 1) lr.1.1,
              main.2.2.1.set (main.2.2.1.length - 1) (lr.1.2 - lr.1.1),
              main.2.2.2 ++ lr.2)
          | _ => main
        else main
      { tlen := withLR.1, starts := withLR.2.1, lengths := withLR.2.2.1,
        events := SearchEv.cacheSlotLookup :: withLR.2.2.2 }

/-- The sorted row of slice i (empty list when out of range). -/
def rowOf {α : Type} (st : IdxState α) (i : ℕ) : List α :=
  st.sorted.getD i []

/-- The derived-array invariant of the index (spec §3): array lengths in
step with the number of slices, the element count accounting, and for every
full slice the `ranges`/`bounds`/`abounds`/`zbounds`/`mbounds`/`mranges`
formulas over the sorted row. -/
def Inv {α : Type} [Inhabited α] (cs ncs : ℕ) (st : IdxState α) : Prop :=
  st.ranges.length = st.sorted.length ∧
  st.bounds.length = st.sorted.length ∧
  st.abounds.length = st.sorted.length * ncs ∧
  st.zbounds.length = st.sorted.length * ncs ∧
  st.mbounds.length = st.sorted.length * ncs ∧
  st.mranges.length = st.sorted.length ∧
  st.nelements = st.sorted.length * (cs * ncs) + st.nelementsLR ∧
  ∀ i, i < st.sorted.length →
    (rowOf st i).length = cs * ncs ∧
    st.ranges.getD i default =
      ((rowOf st i).getD 0 default, (rowOf st i).getD (cs * ncs - 1) default) ∧
    st.bounds.getD i [] = pyStride (rowOf st i) cs cs ∧
    (∀ j, j < ncs →
      st.abounds.getD (i * ncs + j) default = (rowOf st i).getD (j * cs) default) ∧
    (∀ j, j < ncs →
      st.zbounds.getD (i * ncs + j) default =
        (rowOf st i).getD ((j + 1) * cs - 1) default) ∧
    (∀ j, j < ncs →
      st.mbounds.getD (i * ncs + j) default =
        (rowOf st i).getD (j * cs + cs / 2) default) ∧
    st.mranges.getD i default = st.mbounds.getD (i * ncs + ncs / 2) default

/-- Fixture for the search claims: an oracle whose cache always misses and
whose binary searches find nothing (the state of a fresh index). -/
def searchOracleTriv : SearchOracle ℤ :=
  { getslot := fun _ => none
    searchBinNA := fun _ _ => []
    searchBin := fun _ _ => (0, 0)
    readSortedSliceLR := fun _ _ => []
    couldenablecache := false }

/-- Fixture for the search claims: the search-relevant state of an index with
no slices and a clean cache. -/
def searchStateTriv : SearchState ℤ :=
  { dirtycache := false, nrows := 0, starts := [], lengths := [],
    typedFastPath := false, sortedNrows := 0, nelementsLR := 0,
    chunksize := 2, bebounds := [] }

/-- Modelled from the spec: the container layer's group removal
(`Group._f_remove`, not under the sources in review), recorded by the
recursive flag it is invoked with. -/
def groupRemove (recursive : Bool) : Bool :=
  recursive

/-- Source `Index._f_remove`: index removal is always recursive, no matter
what the `recursive` argument says — the super call receives `True`
unconditionally. -/
def f_remove (_recursive : Bool) : Bool :=
  groupRemove true

/-- C1: source `Index.getLookupRange` realizes the spec's translation table:
each single-operator query maps to the tabulated closed interval over
`infType` and `nextafter`, and each well-formed two-operator query with
lower ≤ upper maps to the pair whose first component applies
`nextafter(·,+1)` exactly when the lower operator is `gt` and whose second
component applies `nextafter(·,-1)` exactly when the upper operator is
`lt`. -/
theorem getLookupRange_matches_translation_table {α : Type} [LinearOrder α]
    (na : α → Int → α) (inf : Int → α) (a b : α) :
    (getLookupRange na inf [Op.lt] [a] =
        LookupRange.closed (inf (-1)) (na a (-1)) ∧
      getLookupRange na inf [Op.le] [a] = LookupRange.closed (inf (-1)) a ∧
      getLookupRange na inf [Op.gt] [a] = LookupRange.closed (na a 1) (inf 1) ∧
      getLookupRange na inf [Op.ge] [a] = LookupRange.closed a (inf 1) ∧
      getLookupRange na inf [Op.eq] [a] = LookupRange.closed a a) ∧
    (∀ op0 op1, (op0 = Op.gt ∨ op0 = Op.ge) → (op1 = Op.lt ∨ op1 = Op.le) →
      a ≤ b →
      getLookupRange na inf [op0, op1] [a, b] =
        LookupRange.closed (if op0 = Op.gt then na a 1 else a)
          (if op1 = Op.lt then na b (-1) else b)) := by
  constructor
  · exact ⟨rfl, rfl, rfl, rfl, rfl⟩
  · rintro op0 op1 (rfl | rfl) (rfl | rfl) hab <;>
      simp [getLookupRange, not_lt.mpr hab]

/-- Witness for C1 at the int64 dtype with the query 3 < x ≤ 9. -/
theorem getLookupRange_matches_translation_table_witness :
    ((Op.gt = Op.gt ∨ Op.gt = Op.ge) ∧ (Op.le = Op.lt ∨ Op.le = Op.le) ∧
        (3 : ℤ) ≤ 9) ∧
      getLookupRange nextafterInt (infTypeNum NumDtype.int64) [Op.gt, Op.le]
          [(3 : ℤ), 9] =
        LookupRange.closed (if Op.gt = Op.gt then nextafterInt 3 1 else 3)
          (if Op.le = Op.lt then nextafterInt 9 (-1) else 9) :=
  ⟨by decide,
    (getLookupRange_matches_translation_table nextafterInt
          (infTypeNum NumDtype.int64) 3 9).2 Op.gt Op.le (Or.inl rfl)
      (Or.inr rfl) (by decide)⟩

/-- C8: a well-formed two-sided query with crossed limits returns the empty
tuple and raises no error, and the `badQuery` outcome (the source's failed
assertion) happens exactly for malformed operator/limit sets. -/
theorem getLookupRange_crossed_empty_badquery_reserved {α : Type}
    [LinearOrder α] (na : α → Int → α) (inf : Int → α) :
    (∀ (op0 op1 : Op) (a b : α), (op0 = Op.gt ∨ op0 = Op.ge) →
      (op1 = Op.lt ∨ op1 = Op.le) → b < a →
      getLookupRange na inf [op0, op1] [a, b] = LookupRange.emptyTuple) ∧
    (∀ (ops : List Op) (limits : List α),
      getLookupRange na inf ops limits = LookupRange.badQuery ↔
        ¬ wellFormedQuery ops limits) := by
  constructor
  · rintro op0 op1 a b (rfl | rfl) (rfl | rfl) hba <;>
      simp [getLookupRange, hba]
  · intro ops limits
    constructor
    · intro h hw
      rcases hw with ⟨op, x, he, hl⟩ | ⟨p0, p1, x, y, he, hl, h0, h1⟩
      · subst he; subst hl
        cases op <;> simp [getLookupRange] at h
      · subst he; subst hl
        rcases h0 with rfl | rfl <;> rcases h1 with rfl | rfl <;>
          by_cases hba : y < x <;> simp [getLookupRange, hba] at h
    · intro hnw
      rcases ops with _ | ⟨o1, _ | ⟨o2, _ | ⟨o3, ops3⟩⟩⟩ <;>
        rcases limits with _ | ⟨l1, _ | ⟨l2, _ | ⟨l3, ls3⟩⟩⟩ <;>
        first
          | rfl
          | exact absurd (Or.inl ⟨_, _, rfl, rfl⟩) hnw
          | (have hc : ¬((o1 = Op.gt ∨ o1 = Op.ge) ∧
                (o2 = Op.lt ∨ o2 = Op.le)) :=
              fun hcc =>
                hnw (Or.inr ⟨o1, o2, l1, l2, rfl, rfl, hcc.1, hcc.2⟩)
             simp [getLookupRange, hc])

/-- Witness for C8 at the int64 dtype with the crossed query 9 ≤ x ≤ 3. -/
theorem getLookupRange_crossed_empty_badquery_reserved_witness :
    ((Op.ge = Op.gt ∨ Op.ge = Op.ge) ∧ (Op.le = Op.lt ∨ Op.le = Op.le) ∧
        (3 : ℤ) < 9) ∧
      getLookupRange nextafterInt (infTypeNum NumDtype.int64) [Op.ge, Op.le]
          [(9 : ℤ), 3] = LookupRange.emptyTuple :=
  ⟨by decide,
    (getLookupRange_crossed_empty_badquery_reserved nextafterInt
          (infTypeNum NumDtype.int64)).1 Op.ge Op.le 9 3 (Or.inr rfl)
      (Or.inr rfl) (by decide)⟩

/-- Counterexample to C3: at the int8 maximum 127 the source returns 128,
not the bound itself (integer `nextafter` never saturates); likewise -129 at
the minimum. -/
theorem nextafterInt_saturation_counterexample :
    nextafterInt ((infinityMap NumDtype.int8).2) 1 = 128 ∧
      (infinityMap NumDtype.int8).2 = 127 ∧
      ¬nextafterInt ((infinityMap NumDtype.int8).2) 1 =
          (infinityMap NumDtype.int8).2 ∧
      nextafterInt ((infinityMap NumDtype.int8).1) (-1) = -129 ∧
      (infinityMap NumDtype.int8).1 = -128 := by
  decide

/-- C3 as amended: for every integer dtype and integer value the source's
`nextafter` returns x+1 (respectively x-1) unconditionally — there is no
saturation at the dtype bounds, which only enter through the `infType`
sentinels. -/
theorem nextafterInt_unconditional (_dtype : NumDtype) (x : Int) :
    nextafterInt x 1 = x + 1 ∧ nextafterInt x (-1) = x - 1 ∧
      nextafterInt x 0 = x := by
  refine ⟨?_, ?_, rfl⟩ <;> norm_num [nextafterInt, IntTypeNextAfter]

/-- C4 (code bug): at the all-0xff maximum the +1 direction wraps around to
the all-0x00 string instead of saturating, and symmetrically at the all-0x00
minimum, because the source's saturation guards compare a list with a string
(always false in the source language). -/
theorem StringNextAfter_wraps_at_extremes :
    StringNextAfter (List.replicate 4 255) 1 4 = List.replicate 4 0 ∧
      StringNextAfter (List.replicate 4 0) (-1) 4 = List.replicate 4 255 ∧
      nextafterStr [255] 1 1 = [0] ∧ nextafterStr [0] (-1) 1 = [255] := by
  decide

/-- C10: `Index._f_remove` ignores its `recursive` argument and always
performs the recursive group removal. -/
theorem f_remove_always_recursive :
    (∀ r : Bool, f_remove r = groupRemove true) ∧
      f_remove false = f_remove true ∧ groupRemove true = true :=
  ⟨fun _ => rfl, rfl, rfl⟩

/-- Running the planned swap calls with no termination threshold ever met
executes all of them. -/
theorem runSwaps_of_no_halt (l : List SwapCall) (k : ℕ) (halts : ℕ → Bool)
    (hh : ∀ k, halts k = false) : runSwaps l k halts = l := by
  induction l generalizing k with
  | nil => rfl
  | cons c rest ih => simp [runSwaps, hh, ih]

/-- C7 as amended: the level table of `Index.optimize` under phases that
never hit a termination threshold — levels 0-2 run nothing, 3-5 run
chunks(start), 6-8 run chunks(start) then chunks(stop), and level 9 runs the
full chunks(median), slices(median), chunks(median), chunks(start),
chunks(stop) sequence only when the index spans more than one block: with a
single block the slices(median) and second chunks(median) phases are
skipped. An index with at most one complete slice skips optimization
entirely. -/
theorem optimize_phase_table (nslices nblocks level : ℕ)
    (ro : Bool × Bool × Bool × Bool) (halts : ℕ → Bool)
    (hh : ∀ k, halts k = false) :
    (nslices ≤ 1 → optimize nslices nblocks (some level) ro halts = []) ∧
    (1 < nslices → level < 3 →
      optimize nslices nblocks (some level) ro halts = []) ∧
    (1 < nslices → 3 ≤ level → level < 6 →
      optimize nslices nblocks (some level) ro halts =
        [SwapCall.create, SwapCall.chunks SwapMode.start]) ∧
    (1 < nslices → 6 ≤ level → level < 9 →
      optimize nslices nblocks (some level) ro halts =
        [SwapCall.create, SwapCall.chunks SwapMode.start,
          SwapCall.chunks SwapMode.stop]) ∧
    (1 < nslices → level = 9 → 1 < nblocks →
      optimize nslices nblocks (some level) ro halts =
        [SwapCall.create, SwapCall.chunks SwapMode.median,
          SwapCall.slices SwapMode.median, SwapCall.chunks SwapMode.median,
          SwapCall.chunks SwapMode.start, SwapCall.chunks SwapMode.stop]) ∧
    (1 < nslices → level = 9 → nblocks ≤ 1 →
      optimize nslices nblocks (some level) ro halts =
        [SwapCall.create, SwapCall.chunks SwapMode.median,
          SwapCall.chunks SwapMode.start, SwapCall.chunks SwapMode.stop]) := by
  refine ⟨?_, ?_, ?_, ?_, ?_, ?_⟩
  · intro h
    simp [optimize, h]
  · intro hs hl
    have hf : optLevelFlags level = (false, false, false, false) := by
      simp only [optLevelFlags]
      rw [if_neg (by omega), if_neg (by omega), if_neg (by omega)]
    simp [optimize, Nat.not_le.mpr hs, hf, plannedSwaps, runSwaps]
  · intro hs h3 h6
    have hf : optLevelFlags level = (false, true, false, false) := by
      simp only [optLevelFlags]
      rw [if_pos (by omega)]
    simp [optimize, Nat.not_le.mpr hs, hf, plannedSwaps,
      runSwaps_of_no_halt _ _ _ hh]
  · intro hs h6 h9
    have hf : optLevelFlags level = (false, true, true, false) := by
      simp only [optLevelFlags]
      rw [if_neg (by omega), if_pos (by omega)]
    simp [optimize, Nat.not_le.mpr hs, hf, plannedSwaps,
      runSwaps_of_no_halt _ _ _ hh]
  · intro hs h9 hb
    subst h9
    have hf : optLevelFlags 9 = (false, false, false, true) := by
      simp only [optLevelFlags]
      rw [if_neg (by omega), if_neg (by omega)]
      simp
    simp [optimize, Nat.not_le.mpr hs, hf, plannedSwaps, hb,
      runSwaps_of_no_halt _ _ _ hh]
  · intro hs h9 hb
    subst h9
    have hf : optLevelFlags 9 = (false, false, false, true) := by
      simp only [optLevelFlags]
      rw [if_neg (by omega), if_neg (by omega)]
      simp
    simp [optimize, Nat.not_le.mpr hs, hf, plannedSwaps,
      Nat.not_lt.mpr hb, runSwaps_of_no_halt _ _ _ hh]

/-- Witness for C7: level 4 on a 5-slice, 3-block index runs exactly the
create step and the chunks(start) phase. -/
theorem optimize_phase_table_witness :
    ((∀ k : ℕ, (fun _ : ℕ => false) k = false) ∧ 1 < 5 ∧ 3 ≤ 4 ∧ 4 < 6) ∧
      optimize 5 3 (some 4) (false, false, false, false) (fun _ => false) =
        [SwapCall.create, SwapCall.chunks SwapMode.start] :=
  ⟨⟨fun _ => rfl, by decide⟩,
    (optimize_phase_table 5 3 4 (false, false, false, false) (fun _ => false)
          (fun _ => rfl)).2.2.1 (by decide) (by decide) (by decide)⟩

/-- Counterexample to C7: at level 9 with two slices in a single block the
slices(median) phase is not run even though no termination threshold was
met — the executed sequence drops slices(median) and the second
chunks(median). -/
theorem optimize_level9_single_block_skips_slices :
    (1 : ℕ) < 2 ∧
      SwapCall.slices SwapMode.median ∉
        optimize 2 1 (some 9) (false, false, false, false) (fun _ => false) ∧
      optimize 2 1 (some 9) (false, false, false, false) (fun _ => false) =
        [SwapCall.create, SwapCall.chunks SwapMode.median,
          SwapCall.chunks SwapMode.start, SwapCall.chunks SwapMode.stop] := by
  decide

/-- C9 as amended: only the dummy empty item short-circuits `Index.search` —
it zeroes every entry of `starts` and `lengths`, returns 0, and touches
neither the limits cache nor the sorted array (no observable events) —
whereas every non-empty item (in particular a (lo, hi) pair with hi < lo)
proceeds to the limits-cache lookup first. -/
theorem search_empty_item_short_circuit {α : Type} [LinearOrder α]
    [Inhabited α] (orc : SearchOracle α) (st : SearchState α) :
    ((search orc st []).tlen = 0 ∧
      (search orc st []).events = [] ∧
      (∀ v ∈ (search orc st []).starts, v = 0) ∧
      (∀ v ∈ (search orc st []).lengths, v = 0)) ∧
    (∀ (x : α) (xs : List α),
      (search orc st (x :: xs)).events.head? =
        some SearchEv.cacheSlotLookup) := by
  constructor
  · refine ⟨rfl, rfl, ?_, ?_⟩ <;>
      · intro v hv
        exact List.eq_of_mem_replicate hv
  · intro x xs
    cases h : (if st.dirtycache then none else orc.getslot (x :: xs)) with
    | none => simp [search, h]
    | some sls => simp [search, h]

/-- Witness for C9 on a concrete fresh index. -/
theorem search_empty_item_short_circuit_witness :
    (search searchOracleTriv searchStateTriv []).tlen = 0 ∧
      (search searchOracleTriv searchStateTriv []).events = [] :=
  ⟨(search_empty_item_short_circuit searchOracleTriv searchStateTriv).1.1,
    (search_empty_item_short_circuit searchOracleTriv searchStateTriv).1.2.1⟩

/-- Counterexample to C9: a non-empty (lo, hi) item with hi < lo is not
short-circuited — the source consults the limits cache for it. -/
theorem search_crossed_item_consults_cache :
    (3 : ℤ) < 5 ∧
      (search searchOracleTriv searchStateTriv [(5 : ℤ), 3]).events =
        [SearchEv.cacheSlotLookup] := by
  decide

/-- Sorting preserves length. -/
theorem length_sortAsc {α : Type} [LinearOrder α] (l : List α) :
    (sortAsc l).length = l.length :=
  List.length_insertionSort _ _

/-- Length of a Python strided slice. -/
theorem pyStride_length {α : Type} [Inhabited α] (arr : List α)
    (start step : ℕ) :
    (pyStride arr start step).length =
      (arr.length - start + step - 1) / step := by
  simp [pyStride]

/-- Entry j of a Python strided slice is the entry at start + j·step. -/
theorem pyStride_getD {α : Type} [Inhabited α] (arr : List α)
    (start step j : ℕ) (hj : j < (arr.length - start + step - 1) / step) :
    (pyStride arr start step).getD j default =
      arr.getD (start + j * step) default := by
  simp [pyStride, List.getD_eq_getElem?_getD, List.getElem?_map,
    List.getElem?_range hj]

/-- Count of the strided slice `arr[start::cs]` over cs·n entries when the
offset is below cs. -/
theorem strideCountLt (cs n start : ℕ) (hcs : 0 < cs) (hstart : start < cs) :
    (cs * n - start + cs - 1) / cs = n := by
  cases n with
  | zero =>
    apply Nat.div_eq_of_lt
    omega
  | succ n =>
    have h1 : cs * (n + 1) - start + cs - 1 = cs - 1 - start + cs + cs * n := by
      rw [Nat.mul_succ]
      omega
    rw [h1, Nat.add_mul_div_left _ _ hcs, Nat.add_div_right _ hcs,
      Nat.div_eq_of_lt (by omega)]
    omega

/-- Count of the strided slice `arr[cs::cs]` over cs·n entries. -/
theorem strideCountEq (cs n : ℕ) (hcs : 0 < cs) :
    (cs * n - cs + cs - 1) / cs = n - 1 := by
  cases n with
  | zero =>
    rw [Nat.div_eq_of_lt (by omega)]
  | succ n =>
    have h1 : cs * (n + 1) - cs + cs - 1 = cs - 1 + cs * n := by
      rw [Nat.mul_succ]
      omega
    rw [h1, Nat.add_mul_div_left _ _ hcs, Nat.div_eq_of_lt (by omega)]
    omega

/-- A slice assignment inside the range keeps the list length. -/
theorem setSeg_length {α : Type} (l : List α) (start : ℕ) (vals : List α)
    (h : start + vals.length ≤ l.length) :
    (setSeg l start vals).length = l.length := by
  have ht : (l.take start).length = start := by
    rw [List.length_take]
    exact min_eq_left (by omega)
  simp [setSeg, ht]
  omega

/-- Reading below an in-range slice assignment. -/
theorem setSeg_getElem_lt {α : Type} (l : List α) (start : ℕ)
    (vals : List α) (j : ℕ) (hj : j < start) (hs : start ≤ l.length) :
    (setSeg l start vals)[j]? = l[j]? := by
  have ht : (l.take start).length = start := by
    rw [List.length_take]
    exact min_eq_left hs
  simp only [setSeg, List.append_assoc]
  rw [List.getElem?_append_left (by rw [ht]; exact hj), List.getElem?_take,
    if_pos hj]

/-- Reading inside an in-range slice assignment. -/
theorem setSeg_getElem_mid {α : Type} (l : List α) (start : ℕ)
    (vals : List α) (j : ℕ) (hj : j < vals.length) (hs : start ≤ l.length) :
    (setSeg l start vals)[start + j]? = vals[j]? := by
  have ht : (l.take start).length = start := by
    rw [List.length_take]
    exact min_eq_left hs
  simp only [setSeg, List.append_assoc]
  rw [List.getElem?_append_right (by rw [ht]; omega), ht]
  have h3 : start + j - start = j := by omega
  rw [h3, List.getElem?_append_left hj]

/-- Reading above an in-range slice assignment. -/
theorem setSeg_getElem_ge {α : Type} (l : List α) (start : ℕ)
    (vals : List α) (j : ℕ) (hj : start + vals.length ≤ j)
    (hs : start ≤ l.length) :
    (setSeg l start vals)[j]? = l[j]? := by
  have ht : (l.take start).length = start := by
    rw [List.length_take]
    exact min_eq_left hs
  simp only [setSeg, List.append_assoc]
  rw [List.getElem?_append_right (by rw [ht]; omega), ht]
  rw [List.getElem?_append_right (by omega), List.getElem?_drop]
  congr 1
  omega

/-- getD form of `setSeg_getElem_lt`. -/
theorem setSeg_getD_lt {α : Type} (l : List α) (start : ℕ) (vals : List α)
    (j : ℕ) (d : α) (hj : j < start) (hs : start ≤ l.length) :
    (setSeg l start vals).getD j d = l.getD j d := by
  rw [List.getD_eq_getElem?_getD, List.getD_eq_getElem?_getD,
    setSeg_getElem_lt l start vals j hj hs]

/-- getD form of `setSeg_getElem_mid`. -/
theorem setSeg_getD_mid {α : Type} (l : List α) (start : ℕ) (vals : List α)
    (j : ℕ) (d : α) (hj : j < vals.length) (hs : start ≤ l.length) :
    (setSeg l start vals).getD (start + j) d = vals.getD j d := by
  rw [List.getD_eq_getElem?_getD, List.getD_eq_getElem?_getD,
    setSeg_getElem_mid l start vals j hj hs]

/-- getD form of `setSeg_getElem_ge`. -/
theorem setSeg_getD_ge {α : Type} (l : List α) (start : ℕ) (vals : List α)
    (j : ℕ) (d : α) (hj : start + vals.length ≤ j) (hs : start ≤ l.length) :
    (setSeg l start vals).getD j d = l.getD j d := by
  rw [List.getD_eq_getElem?_getD, List.getD_eq_getElem?_getD,
    setSeg_getElem_ge l start vals j hj hs]

/-- getD of `List.set` at the written position. -/
theorem set_getD_eq {α : Type} (l : List α) (i : ℕ) (a d : α)
    (h : i < l.length) : (l.set i a).getD i d = a := by
  rw [List.getD_eq_getElem?_getD, List.getElem?_set]
  simp [h]

/-- getD of `List.set` away from the written position. -/
theorem set_getD_ne {α : Type} (l : List α) (i j : ℕ) (a d : α)
    (h : i ≠ j) : (l.set i a).getD j d = l.getD j d := by
  rw [List.getD_eq_getElem?_getD, List.getElem?_set, if_neg h,
    ← List.getD_eq_getElem?_getD]

/-- Index arithmetic: per-chunk positions of distinct slices stay below or
above the rewritten segment. -/
theorem chunkPosLt (i n j ncs : ℕ) (hij : i < n) (hj : j < ncs) :
    i * ncs + j < n * ncs := by
  have h2 := Nat.mul_le_mul_right ncs (show i + 1 ≤ n by omega)
  rw [Nat.succ_mul] at h2
  omega

/-- Every reachable index state satisfies the derived-array invariant:
`append` establishes the formulas for the slice it adds, the per-slice
rewrite step of the optimizer re-establishes them for the slice it rewrites,
and the last-row append leaves the slice arrays untouched. -/
theorem reachable_inv {α : Type} [LinearOrder α] [Inhabited α]
    (cs ncs : ℕ) (hcs : 0 < cs) (hncs : 0 < ncs)
    (st : IdxState α) (hr : Reachable cs ncs st) : Inv cs ncs st := by
  induction hr with
  | init =>
    refine ⟨rfl, rfl, by simp [emptyIndex], by simp [emptyIndex],
      by simp [emptyIndex], rfl, by simp [emptyIndex], ?_⟩
    intro i hi
    simp [emptyIndex] at hi
  | append_full st arr hst hlen ih =>
    obtain ⟨hR, hB, hA, hZ, hM, hMr, hNe, hSl⟩ := ih
    have hr2 : (sortAsc arr).length = cs * ncs := by
      rw [length_sortAsc, hlen]
    have hcA : ((sortAsc arr).length - 0 + cs - 1) / cs = ncs := by
      rw [hr2]; exact strideCountLt cs ncs 0 hcs hcs
    have hcZ : ((sortAsc arr).length - (cs - 1) + cs - 1) / cs = ncs := by
      rw [hr2]; exact strideCountLt cs ncs (cs - 1) hcs (by omega)
    have hcM : ((sortAsc arr).length - cs / 2 + cs - 1) / cs = ncs := by
      rw [hr2]
      exact strideCountLt cs ncs (cs / 2) hcs (Nat.div_lt_self hcs (by omega))
    have hlA : (pyStride (sortAsc arr) 0 cs).length = ncs := by
      rw [pyStride_length, hcA]
    have hlZ : (pyStride (sortAsc arr) (cs - 1) cs).length = ncs := by
      rw [pyStride_length, hcZ]
    have hlM : (pyStride (sortAsc arr) (cs / 2) cs).length = ncs := by
      rw [pyStride_length, hcM]
    refine ⟨?_, ?_, ?_, ?_, ?_, ?_, ?_, ?_⟩
    · simp [append, hR]
    · simp [append, hB]
    · simp only [append, List.length_append, List.length_singleton]
      rw [hA, hlA, Nat.succ_mul]
    · simp only [append, List.length_append, List.length_singleton]
      rw [hZ, hlZ, Nat.succ_mul]
    · simp only [append, List.length_append, List.length_singleton]
      rw [hM, hlM, Nat.succ_mul]
    · simp [append, hMr]
    · simp [append]
    · intro i hi
      have hi2 : i < st.sorted.length + 1 := by
        simpa [append] using hi
      by_cases hin : i < st.sorted.length
      · obtain ⟨hL0, hRg0, hB0, hA0, hZ0, hM0, hMr0⟩ := hSl i hin
        have hrow : rowOf (append cs ncs st arr) i = rowOf st i := by
          simp only [rowOf, append]
          exact List.getD_append _ _ _ _ hin
        refine ⟨?_, ?_, ?_, ?_, ?_, ?_, ?_⟩
        · rw [hrow]; exact hL0
        · show (st.ranges ++ _).getD i default = _
          rw [List.getD_append _ _ _ _ (by rw [hR]; exact hin), hrow]
          exact hRg0
        · show (st.bounds ++ _).getD i [] = _
          rw [List.getD_append _ _ _ _ (by rw [hB]; exact hin), hrow]
          exact hB0
        · intro j hj
          show (st.abounds ++ _).getD (i * ncs + j) default = _
          rw [List.getD_append _ _ _ _
              (by rw [hA]; exact chunkPosLt i _ j ncs hin hj), hrow]
          exact hA0 j hj
        · intro j hj
          show (st.zbounds ++ _).getD (i * ncs + j) default = _
          rw [List.getD_append _ _ _ _
              (by rw [hZ]; exact chunkPosLt i _ j ncs hin hj), hrow]
          exact hZ0 j hj
        · intro j hj
          show (st.mbounds ++ _).getD (i * ncs + j) default = _
          rw [List.getD_append _ _ _ _
              (by rw [hM]; exact chunkPosLt i _ j ncs hin hj), hrow]
          exact hM0 j hj
        · show (st.mranges ++ _).getD i default =
            (st.mbounds ++ _).getD (i * ncs + ncs / 2) default
          rw [List.getD_append _ _ _ _ (by rw [hMr]; exact hin),
            List.getD_append _ _ _ _
              (by
                rw [hM]
                exact chunkPosLt i _ (ncs / 2) ncs hin
                  (Nat.div_lt_self hncs (by omega)))]
          exact hMr0
      · have hieq : i = st.sorted.length := by omega
        subst hieq
        have hrow : rowOf (append cs ncs st arr) st.sorted.length =
            sortAsc arr := by
          simp only [rowOf, append]
          rw [List.getD_append_right _ _ _ _ (le_refl _)]
          simp
        refine ⟨?_, ?_, ?_, ?_, ?_, ?_, ?_⟩
        · rw [hrow]; exact hr2
        · show (st.ranges ++ _).getD st.sorted.length default = _
          rw [List.getD_append_right _ _ _ _ (by rw [hR]), hrow, hR]
          simp [hr2]
        · show (st.bounds ++ _).getD st.sorted.length [] = _
          rw [List.getD_append_right _ _ _ _ (by rw [hB]), hrow, hB]
          simp
        · intro j hj
          show (st.abounds ++ _).getD (st.sorted.length * ncs + j) default = _
          rw [List.getD_append_right _ _ _ _ (by rw [hA]; omega), hA,
            Nat.add_sub_cancel_left, hrow,
            pyStride_getD _ _ _ _ (by rw [hcA]; exact hj)]
          simp
        · intro j hj
          show (st.zbounds ++ _).getD (st.sorted.length * ncs + j) default = _
          rw [List.getD_append_right _ _ _ _ (by rw [hZ]; omega), hZ,
            Nat.add_sub_cancel_left, hrow,
            pyStride_getD _ _ _ _ (by rw [hcZ]; exact hj)]
          congr 1
          rw [Nat.succ_mul]
          omega
        · intro j hj
          show (st.mbounds ++ _).getD (st.sorted.length * ncs + j) default = _
          rw [List.getD_append_right _ _ _ _ (by rw [hM]; omega), hM,
            Nat.add_sub_cancel_left, hrow,
            pyStride_getD _ _ _ _ (by rw [hcM]; exact hj)]
          congr 1
          omega
        · show (st.mranges ++ _).getD st.sorted.length default =
            (st.mbounds ++ _).getD (st.sorted.length * ncs + ncs / 2) default
          rw [List.getD_append_right _ _ _ _ (by rw [hMr]),
            List.getD_append_right _ _ _ _ (by rw [hM]; omega), hMr, hM,
            Nat.add_sub_cancel_left, Nat.sub_self]
          simp
  | append_last st arr hst hpos hle ih =>
    obtain ⟨hR, hB, hA, hZ, hM, hMr, hNe, hSl⟩ := ih
    refine ⟨?_, ?_, ?_, ?_, ?_, ?_, ?_, ?_⟩
    · simpa [appendLastRow] using hR
    · simpa [appendLastRow] using hB
    · simpa [appendLastRow] using hA
    · simpa [appendLastRow] using hZ
    · simpa [appendLastRow] using hM
    · simpa [appendLastRow] using hMr
    · simp [appendLastRow]
    · intro i hi
      have hi2 : i < st.sorted.length := by simpa [appendLastRow] using hi
      have h0 := hSl i hi2
      simpa only [appendLastRow, rowOf] using h0
  | reorder st nslice blk0 hst hns hblen ih =>
    obtain ⟨hR, hB, hA, hZ, hM, hMr, hNe, hSl⟩ := ih
    have hblock : (sortAsc blk0).length = cs * ncs := by
      rw [length_sortAsc, hblen]
    have hcA : ((sortAsc blk0).length - 0 + cs - 1) / cs = ncs := by
      rw [hblock]; exact strideCountLt cs ncs 0 hcs hcs
    have hcZ : ((sortAsc blk0).length - (cs - 1) + cs - 1) / cs = ncs := by
      rw [hblock]; exact strideCountLt cs ncs (cs - 1) hcs (by omega)
    have hcM : ((sortAsc blk0).length - cs / 2 + cs - 1) / cs = ncs := by
      rw [hblock]
      exact strideCountLt cs ncs (cs / 2) hcs (Nat.div_lt_self hcs (by omega))
    have hlA : (pyStride (sortAsc blk0) 0 cs).length = ncs := by
      rw [pyStride_length, hcA]
    have hlZ : (pyStride (sortAsc blk0) (cs - 1) cs).length = ncs := by
      rw [pyStride_length, hcZ]
    have hlM : (pyStride (sortAsc blk0) (cs / 2) cs).length = ncs := by
      rw [pyStride_length, hcM]
    have hseg2 : nslice * ncs + ncs ≤ st.sorted.length * ncs := by
      have h2 := Nat.mul_le_mul_right ncs
        (show nslice + 1 ≤ st.sorted.length by omega)
      rw [Nat.succ_mul] at h2
      omega
    refine ⟨?_, ?_, ?_, ?_, ?_, ?_, ?_, ?_⟩
    · simp [reorder_slice, hR]
    · simp [reorder_slice, hB]
    · simp only [reorder_slice]
      rw [setSeg_length _ _ _ (by rw [hlA, hA]; exact hseg2), hA]
      simp
    · simp only [reorder_slice]
      rw [setSeg_length _ _ _ (by rw [hlZ, hZ]; exact hseg2), hZ]
      simp
    · simp only [reorder_slice]
      rw [setSeg_length _ _ _ (by rw [hlM, hM]; exact hseg2), hM]
      simp
    · simp [reorder_slice, hMr]
    · simpa [reorder_slice] using hNe
    · intro i hi
      have hi2 : i < st.sorted.length := by
        simpa [reorder_slice] using hi
      by_cases hieq : i = nslice
      · subst hieq
        have hrow : rowOf (reorder_slice cs ncs st i blk0) i = sortAsc blk0 := by
          simp only [rowOf, reorder_slice]
          exact set_getD_eq _ _ _ _ hns
        refine ⟨?_, ?_, ?_, ?_, ?_, ?_, ?_⟩
        · rw [hrow]; exact hblock
        · show (st.ranges.set i _).getD i default = _
          rw [set_getD_eq _ _ _ _ (by rw [hR]; exact hns), hrow]
          simp [hblock]
        · show (st.bounds.set i _).getD i [] = _
          rw [set_getD_eq _ _ _ _ (by rw [hB]; exact hns), hrow]
        · intro j hj
          show (setSeg st.abounds (i * ncs) _).getD (i * ncs + j) default = _
          rw [setSeg_getD_mid _ _ _ _ _ (by rw [hlA]; exact hj)
              (by rw [hA]; omega),
            pyStride_getD _ _ _ _ (by rw [hcA]; exact hj), hrow]
          simp
        · intro j hj
          show (setSeg st.zbounds (i * ncs) _).getD (i * ncs + j) default = _
          rw [setSeg_getD_mid _ _ _ _ _ (by rw [hlZ]; exact hj)
              (by rw [hZ]; omega),
            pyStride_getD _ _ _ _ (by rw [hcZ]; exact hj), hrow]
          congr 1
          rw [Nat.succ_mul]
          omega
        · intro j hj
          show (setSeg st.mbounds (i * ncs) _).getD (i * ncs + j) default = _
          rw [setSeg_getD_mid _ _ _ _ _ (by rw [hlM]; exact hj)
              (by rw [hM]; omega),
            pyStride_getD _ _ _ _ (by rw [hcM]; exact hj), hrow]
          congr 1
          omega
        · show (st.mranges.set i _).getD i default =
            (setSeg st.mbounds (i * ncs) _).getD (i * ncs + ncs / 2) default
          rw [set_getD_eq _ _ _ _ (by rw [hMr]; exact hns),
            setSeg_getD_mid _ _ _ _ _
              (by rw [hlM]; exact Nat.div_lt_self hncs (by omega))
              (by rw [hM]; omega)]
      · have hne : nslice ≠ i := fun h => hieq h.symm
        have hrow : rowOf (reorder_slice cs ncs st nslice blk0) i =
            rowOf st i := by
          simp only [rowOf, reorder_slice]
          exact set_getD_ne _ _ _ _ _ hne
        obtain ⟨hL0, hRg0, hB0, hA0, hZ0, hM0, hMr0⟩ := hSl i hi2
        have houtside : ∀ j, j < ncs →
            nslice * ncs + ncs ≤ i * ncs + j ∨ i * ncs + j < nslice * ncs := by
          intro j hj
          by_cases hcase : i < nslice
          · right; exact chunkPosLt i nslice j ncs hcase hj
          · left
            have h2 := Nat.mul_le_mul_right ncs
              (show nslice + 1 ≤ i by omega)
            rw [Nat.succ_mul] at h2
            omega
        have habD : ∀ (l vals : List α), l.length = st.sorted.length * ncs →
            vals.length = ncs → ∀ j, j < ncs →
            (setSeg l (nslice * ncs) vals).getD (i * ncs + j) default =
              l.getD (i * ncs + j) default := by
          intro l vals hl hv j hj
          rcases houtside j hj with hge | hlt
          · exact setSeg_getD_ge _ _ _ _ _ (by rw [hv]; exact hge)
              (by rw [hl]; omega)
          · exact setSeg_getD_lt _ _ _ _ _ hlt (by rw [hl]; omega)
        refine ⟨by rw [hrow]; exact hL0, ?_, ?_, ?_, ?_, ?_, ?_⟩
        · show (st.ranges.set nslice _).getD i default = _
          rw [set_getD_ne _ _ _ _ _ hne, hrow]
          exact hRg0
        · show (st.bounds.set nslice _).getD i [] = _
          rw [set_getD_ne _ _ _ _ _ hne, hrow]
          exact hB0
        · intro j hj
          show (setSeg st.abounds (nslice * ncs) _).getD (i * ncs + j)
            default = _
          rw [habD _ _ hA hlA j hj, hrow]
          exact hA0 j hj
        · intro j hj
          show (setSeg st.zbounds (nslice * ncs) _).getD (i * ncs + j)
            default = _
          rw [habD _ _ hZ hlZ j hj, hrow]
          exact hZ0 j hj
        · intro j hj
          show (setSeg st.mbounds (nslice * ncs) _).getD (i * ncs + j)
            default = _
          rw [habD _ _ hM hlM j hj, hrow]
          exact hM0 j hj
        · show (st.mranges.set nslice _).getD i default =
            (setSeg st.mbounds (nslice * ncs) _).getD (i * ncs + ncs / 2)
              default
          rw [set_getD_ne _ _ _ _ _ hne,
            habD _ _ hM hlM _ (Nat.div_lt_self hncs (by omega))]
          exact hMr0

/-- C2: in every reachable index state — after every full-slice append and
every per-slice rewrite step of the optimizer — each full slice i with
sorted row r satisfies the derived-array formulas: ranges[i] = (r[0],
r[ss-1]); bounds[i][k] = r[(k+1)·cs] for k < ss/cs - 1; abounds[i·ncs+j] =
r[j·cs], zbounds[i·ncs+j] = r[(j+1)·cs-1], mbounds[i·ncs+j] = r[j·cs+cs/2]
for j < ncs; and mranges[i] = mbounds[i·ncs + ncs/2]. -/
theorem derived_arrays_formulas {α : Type} [LinearOrder α] [Inhabited α]
    (cs ncs : ℕ) (hcs : 0 < cs) (hncs : 0 < ncs) (st : IdxState α)
    (hr : Reachable cs ncs st) :
    ∀ i, i < st.sorted.length →
      st.ranges.getD i default =
        ((rowOf st i).getD 0 default,
          (rowOf st i).getD (cs * ncs - 1) default) ∧
      (∀ k, k < ncs - 1 →
        (st.bounds.getD i []).getD k default =
          (rowOf st i).getD ((k + 1) * cs) default) ∧
      (∀ j, j < ncs →
        st.abounds.getD (i * ncs + j) default =
          (rowOf st i).getD (j * cs) default) ∧
      (∀ j, j < ncs →
        st.zbounds.getD (i * ncs + j) default =
          (rowOf st i).getD ((j + 1) * cs - 1) default) ∧
      (∀ j, j < ncs →
        st.mbounds.getD (i * ncs + j) default =
          (rowOf st i).getD (j * cs + cs / 2) default) ∧
      st.mranges.getD i default =
        st.mbounds.getD (i * ncs + ncs / 2) default := by
  intro i hi
  obtain ⟨hR, hB, hA, hZ, hM, hMr, hNe, hSl⟩ :=
    reachable_inv cs ncs hcs hncs st hr
  obtain ⟨hL0, hRg0, hB0, hA0, hZ0, hM0, hMr0⟩ := hSl i hi
  refine ⟨hRg0, ?_, hA0, hZ0, hM0, hMr0⟩
  intro k hk
  rw [hB0, pyStride_getD _ _ _ _
      (by rw [hL0, strideCountEq cs ncs hcs]; exact hk)]
  congr 1
  have h4 : (k + 1) * cs = k * cs + cs := by ring
  omega

/-- Witness for C2: one full append of the slice [5, 2, 8, 1] to a fresh
int index with chunksize 2 and two chunks per slice. -/
theorem derived_arrays_formulas_witness :
    (0 < 2 ∧ 0 < 2 ∧ ([5, 2, 8, 1] : List ℤ).length = 2 * 2) ∧
      (∀ i,
        i < (append 2 2 (emptyIndex : IdxState ℤ) [5, 2, 8, 1]).sorted.length →
        (append 2 2 (emptyIndex : IdxState ℤ) [5, 2, 8, 1]).ranges.getD i
            default =
          ((rowOf (append 2 2 (emptyIndex : IdxState ℤ) [5, 2, 8, 1]) i).getD 0
              default,
            (rowOf (append 2 2 (emptyIndex : IdxState ℤ) [5, 2, 8, 1]) i).getD
              (2 * 2 - 1) default) ∧
        (∀ k, k < 2 - 1 →
          ((append 2 2 (emptyIndex : IdxState ℤ) [5, 2, 8, 1]).bounds.getD i
              []).getD k default =
            (rowOf (append 2 2 (emptyIndex : IdxState ℤ) [5, 2, 8, 1]) i).getD
              ((k + 1) * 2) default) ∧
        (∀ j, j < 2 →
          (append 2 2 (emptyIndex : IdxState ℤ) [5, 2, 8, 1]).abounds.getD
              (i * 2 + j) default =
            (rowOf (append 2 2 (emptyIndex : IdxState ℤ) [5, 2, 8, 1]) i).getD
              (j * 2) default) ∧
        (∀ j, j < 2 →
          (append 2 2 (emptyIndex : IdxState ℤ) [5, 2, 8, 1]).zbounds.getD
              (i * 2 + j) default =
            (rowOf (append 2 2 (emptyIndex : IdxState ℤ) [5, 2, 8, 1]) i).getD
              ((j + 1) * 2 - 1) default) ∧
        (∀ j, j < 2 →
          (append 2 2 (emptyIndex : IdxState ℤ) [5, 2, 8, 1]).mbounds.getD
              (i * 2 + j) default =
            (rowOf (append 2 2 (emptyIndex : IdxState ℤ) [5, 2, 8, 1]) i).getD
              (j * 2 + 2 / 2) default) ∧
        (append 2 2 (emptyIndex : IdxState ℤ) [5, 2, 8, 1]).mranges.getD i
            default =
          (append 2 2 (emptyIndex : IdxState ℤ) [5, 2, 8, 1]).mbounds.getD
            (i * 2 + 2 / 2) default) :=
  ⟨by decide,
    derived_arrays_formulas 2 2 (by decide) (by decide) _
      (Reachable.append_full _ _ Reachable.init (by decide))⟩

/-- C6 as amended: over every reachable state, a full-slice append grows
`nelements` by exactly `len(values) - nelementsLR` — so by exactly
`len(values)` precisely when no partial slice was outstanding — and
`nelementsLR = 0` holds if and only if no trailing partial slice exists,
i.e. `nelements` equals the number of full slices times the slice size. -/
theorem append_nelements_accounting {α : Type} [LinearOrder α] [Inhabited α]
    (cs ncs : ℕ) (hcs : 0 < cs) (hncs : 0 < ncs) (st : IdxState α)
    (arr : List α) (hr : Reachable cs ncs st)
    (hlen : arr.length = cs * ncs) :
    ((append cs ncs st arr).nelements + st.nelementsLR =
      st.nelements + arr.length) ∧
    ((append cs ncs st arr).nelements = st.nelements + arr.length ↔
      st.nelementsLR = 0) ∧
    (st.nelementsLR = 0 ↔
      st.nelements = st.sorted.length * (cs * ncs)) := by
  obtain ⟨hR, hB, hA, hZ, hM, hMr, hNe, hSl⟩ :=
    reachable_inv cs ncs hcs hncs st hr
  have hap : (append cs ncs st arr).nelements =
      (st.sorted.length + 1) * (cs * ncs) := rfl
  rw [hap, hlen, hNe, Nat.succ_mul]
  omega

/-- Witness for C6: the first full append to a fresh index. -/
theorem append_nelements_accounting_witness :
    (0 < 2 ∧ 0 < 2 ∧ ([6, 4, 3, 1] : List ℤ).length = 2 * 2) ∧
      ((append 2 2 (emptyIndex : IdxState ℤ) [6, 4, 3, 1]).nelements +
          (emptyIndex : IdxState ℤ).nelementsLR =
        (emptyIndex : IdxState ℤ).nelements + ([6, 4, 3, 1] : List ℤ).length) :=
  ⟨by decide,
    (append_nelements_accounting 2 2 (by decide) (by decide) _ _
        Reachable.init (by decide)).1⟩

/-- Counterexample to C6: when a trailing partial slice is outstanding (a
reachable situation: a last-row append followed by the full append that
absorbs those rows), `nelements` grows by `len(values) - nelementsLR`, not
by `len(values)`. -/
theorem append_nelements_delta_counterexample :
    Reachable 2 2 (appendLastRow 2 2 (emptyIndex : IdxState ℤ) [5, 2]) ∧
      ([1, 2, 3, 4] : List ℤ).length = 2 * 2 ∧
      (append 2 2 (appendLastRow 2 2 (emptyIndex : IdxState ℤ) [5, 2])
            [1, 2, 3, 4]).nelements ≠
        (appendLastRow 2 2 (emptyIndex : IdxState ℤ) [5, 2]).nelements +
          ([1, 2, 3, 4] : List ℤ).length :=
  ⟨Reachable.append_last _ _ Reachable.init (by decide) (by decide),
    by decide, by decide⟩

/-- The increment walk keeps the byte-list length. -/
theorem length_incBytes (l : List ℕ) : (incBytes l).length = l.length := by
  induction l with
  | nil => rfl
  | cons b rest ih =>
    by_cases h : b < 255 <;> simp [incBytes, h, ih]

/-- On valid byte lists that are not all-0xff, the decrement walk undoes the
increment walk. -/
theorem decBytes_incBytes (l : List ℕ) (hv : ∀ b ∈ l, b < 256)
    (hs : ∃ b ∈ l, b ≠ 255) : decBytes (incBytes l) = l := by
  induction l with
  | nil =>
    obtain ⟨b, hb, _⟩ := hs
    simp at hb
  | cons b rest ih =>
    by_cases h : b < 255
    · simp [incBytes, h, decBytes]
    · have hb : b = 255 := by
        have := hv b (by simp)
        omega
      subst hb
      have hrest : ∃ x ∈ rest, x ≠ 255 := by
        obtain ⟨x, hx, hxne⟩ := hs
        rcases List.mem_cons.mp hx with rfl | hx2
        · exact absurd rfl hxne
        · exact ⟨x, hx2, hxne⟩
      simp [incBytes, h, decBytes,
        ih (fun x hx => hv x (by simp [hx])) hrest]

/-- Appending suffixes preserves strict lexicographic order of equal-length
lists. -/
theorem lex_append_of_lex (s1 s2 t1 t2 : List ℕ)
    (h : List.Lex (· < ·) s1 s2) (hlen : s1.length = s2.length) :
    List.Lex (· < ·) (s1 ++ t1) (s2 ++ t2) := by
  induction h with
  | nil => simp at hlen
  | rel hab => exact List.Lex.rel hab
  | cons h ih => exact List.Lex.cons (ih (by simpa using hlen))

/-- A strictly larger entry after a common front makes the list
lexicographically larger. -/
theorem lex_append_head (p : List ℕ) (a c : ℕ) (t1 t2 : List ℕ)
    (h : a < c) : List.Lex (· < ·) (p ++ a :: t1) (p ++ c :: t2) := by
  induction p with
  | nil => exact List.Lex.rel h
  | cons x xs ih => exact List.Lex.cons ih

/-- A proper extension is lexicographically larger (the source language
orders byte strings the same way). -/
theorem lex_append_self (x t : List ℕ) (ht : t ≠ []) :
    List.Lex (· < ·) x (x ++ t) := by
  induction x with
  | nil =>
    cases t with
    | nil => exact absurd rfl ht
    | cons c m => exact List.Lex.nil
  | cons a rest ih => exact List.Lex.cons ih

/-- The increment walk strictly increases the byte string (read in forward
order) whenever it does not wrap. -/
theorem incBytes_lex (l : List ℕ) (hv : ∀ b ∈ l, b < 256)
    (hs : ∃ b ∈ l, b ≠ 255) :
    List.Lex (· < ·) l.reverse (incBytes l).reverse := by
  induction l with
  | nil =>
    obtain ⟨b, hb, _⟩ := hs
    simp at hb
  | cons b rest ih =>
    by_cases h : b < 255
    · simp only [incBytes, if_pos h, List.reverse_cons]
      exact lex_append_head rest.reverse b (b + 1) [] [] (by omega)
    · have hb : b = 255 := by
        have := hv b (by simp)
        omega
      subst hb
      simp only [incBytes, if_neg h, List.reverse_cons]
      have hrest : ∃ x ∈ rest, x ≠ 255 := by
        obtain ⟨x, hx, hxne⟩ := hs
        rcases List.mem_cons.mp hx with rfl | hx2
        · exact absurd rfl hxne
        · exact ⟨x, hx2, hxne⟩
      exact lex_append_of_lex _ _ _ _
        (ih (fun x hx => hv x (by simp [hx])) hrest)
        (by simp [length_incBytes])

/-- Length of the right-padded representation. -/
theorem pad_length (x : List ℕ) (itemsize : ℕ) (h : x.length ≤ itemsize) :
    (pad x itemsize).length = itemsize := by
  simp [pad]
  omega

/-- Padding an already full-length list changes nothing. -/
theorem pad_eq_self (l : List ℕ) (itemsize : ℕ) (h : l.length = itemsize) :
    pad l itemsize = l := by
  simp [pad, h]

/-- Padding keeps byte validity. -/
theorem pad_valid (x : List ℕ) (itemsize : ℕ) (hv : ∀ b ∈ x, b < 256) :
    ∀ b ∈ pad x itemsize, b < 256 := by
  intro b hb
  rcases List.mem_append.mp hb with h1 | h2
  · exact hv b h1
  · have := List.eq_of_mem_replicate h2
    omega

/-- A list that is not the all-0xff string has a byte below 0xff. -/
theorem exists_ne_of_ne_replicate (l : List ℕ) (n : ℕ) (hlen : l.length = n)
    (hne : l ≠ List.replicate n 255) : ∃ b ∈ l, b ≠ 255 := by
  by_contra hc
  push_neg at hc
  exact hne (List.eq_replicate_iff.mpr ⟨hlen, fun b hb => hc b hb⟩)

/-- Binade of the rational just above 2^53. -/
theorem binade_pow53_add_one : binade ((2 ^ 53 : ℚ) + 1) = 53 := by
  have h1 : ((2 ^ 53 : ℚ) + 1) = ((9007199254740993 : ℕ) : ℚ) := by norm_num
  have hl1 : log2floor 9007199254740993 = 53 := by decide
  have hl2 : log2floor 1 = 0 := by decide
  have hq : qpow2 53 = (2 : ℚ) ^ (53 : ℕ) := by
    rw [qpow2, if_pos (by decide), show (53 : ℤ).toNat = 53 from rfl]
  rw [h1]
  simp only [binade, Rat.num_natCast, Rat.den_natCast, Int.toNat_natCast,
    hl1, hl2]
  norm_num [hq]

/-- The binary64 sum `2^53 + 1` rounds back to `2^53` (ties to even). -/
theorem fl_pow53_add_one : fl ((2 ^ 53 : ℚ) + 1) = (2 ^ 53 : ℚ) := by
  have hb := binade_pow53_add_one
  have hne : ((2 ^ 53 : ℚ) + 1) ≠ 0 := by norm_num
  have hneg : ¬((2 ^ 53 : ℚ) + 1 < 0) := by norm_num
  simp only [fl, if_neg hne, if_neg hneg, hb]
  have hmax : max ((53 : ℤ) - 52) (-1074) = 1 := by decide
  rw [hmax]
  have hq1 : qpow2 1 = (2 : ℚ) := by
    rw [qpow2, if_pos (by decide), show (1 : ℤ).toNat = 1 from rfl]
    norm_num
  rw [hq1]
  have hfloor : ⌊((2 ^ 53 : ℚ) + 1) / 2⌋ = 4503599627370496 := by
    norm_num
  have hrne : rne (((2 ^ 53 : ℚ) + 1) / 2) = 4503599627370496 := by
    simp only [rne, hfloor]
    norm_num
  rw [hrne]
  norm_num [infinity]

/-- At x = 2^53 the source's float64 `nextafter` returns x itself: the
argument `x + 1` of `PyNextAfter` rounds back to x, so the `x == y` branch
fires. -/
theorem nextafterF64_pow53 : nextafterF64 (2 ^ 53 : ℚ) 1 = (2 ^ 53 : ℚ) := by
  have h1 : ¬((1 : Int) = 0) := by decide
  have h2 : ¬((1 : Int) < 0) := by decide
  simp only [nextafterF64, if_neg h1, if_neg h2]
  rw [fl_pow53_add_one]
  simp [PyNextAfter]

/-- C5 as amended: for integer dtypes `nextafter(x,+1)` is x+1 > x with an
exact round trip for every value; for byte-string dtypes away from
saturation `nextafter(x,+1)` is strictly larger in the padded lexicographic
order and the round trip returns the right-padded representation of x
(hence x itself exactly when x already has itemsize bytes); for float64 the
original property fails: at the finite, non-saturating x = 2^53 the source
returns x itself. -/
theorem nextafter_strict_monotone_roundtrip :
    (∀ (_dtype : NumDtype) (x : Int),
      nextafterInt x 1 = x + 1 ∧ x < nextafterInt x 1 ∧
        nextafterInt (nextafterInt x 1) (-1) = x) ∧
    (∀ (x : List ℕ) (itemsize : ℕ), (∀ b ∈ x, b < 256) →
      x.length ≤ itemsize →
      pad x itemsize ≠ List.replicate itemsize 255 →
      List.Lex (· < ·) x (nextafterStr x 1 itemsize) ∧
        nextafterStr (nextafterStr x 1 itemsize) (-1) itemsize =
          pad x itemsize) ∧
    nextafterF64 (2 ^ 53 : ℚ) 1 = (2 ^ 53 : ℚ) := by
  refine ⟨?_, ?_, nextafterF64_pow53⟩
  · intro _ x
    have h1 : nextafterInt x 1 = x + 1 := by
      norm_num [nextafterInt, IntTypeNextAfter]
    refine ⟨h1, by rw [h1]; omega, ?_⟩
    rw [h1]
    norm_num [nextafterInt, IntTypeNextAfter]
  · intro x itemsize hv hlen hsat
    have hpl : (pad x itemsize).length = itemsize := pad_length _ _ hlen
    have hvp := pad_valid x itemsize hv
    have hex : ∃ b ∈ pad x itemsize, b ≠ 255 :=
      exists_ne_of_ne_replicate _ _ hpl hsat
    have hvr : ∀ b ∈ (pad x itemsize).reverse, b < 256 := by
      simpa using hvp
    have hexr : ∃ b ∈ (pad x itemsize).reverse, b ≠ 255 := by
      simpa using hex
    have hdef : nextafterStr x 1 itemsize =
        (incBytes (pad x itemsize).reverse).reverse := by
      simp [nextafterStr, StringNextAfter]
    constructor
    · rw [hdef]
      have hlex : List.Lex (· < ·) (pad x itemsize)
          (incBytes (pad x itemsize).reverse).reverse := by
        have h0 := incBytes_lex (pad x itemsize).reverse hvr hexr
        rwa [List.reverse_reverse] at h0
      by_cases hfull : x.length = itemsize
      · rw [pad_eq_self x itemsize hfull] at hlex ⊢
        exact hlex
      · have hlex2 : List.Lex (· < ·) x (pad x itemsize) := by
          rw [pad]
          refine lex_append_self x _ ?_
          intro hnil
          have h5 := congrArg List.length hnil
          simp at h5
          omega
        exact Trans.trans hlex2 hlex
    · rw [hdef]
      have hylen : ((incBytes (pad x itemsize).reverse).reverse).length =
          itemsize := by
        simp [length_incBytes, hpl]
      have hdef2 : nextafterStr
          ((incBytes (pad x itemsize).reverse).reverse) (-1) itemsize =
          (decBytes (pad ((incBytes (pad x itemsize).reverse).reverse)
            itemsize).reverse).reverse := by
        simp [nextafterStr, StringNextAfter]
      rw [hdef2, pad_eq_self _ _ hylen, List.reverse_reverse,
        decBytes_incBytes _ hvr hexr, List.reverse_reverse]

/-- Witness for C5 at the byte string [0x61] with itemsize 2. -/
theorem nextafter_strict_monotone_roundtrip_witness :
    ((∀ b ∈ [(97 : ℕ)], b < 256) ∧ ([(97 : ℕ)] : List ℕ).length ≤ 2 ∧
        pad [97] 2 ≠ List.replicate 2 255) ∧
      (List.Lex (· < ·) [(97 : ℕ)] (nextafterStr [97] 1 2) ∧
        nextafterStr (nextafterStr [97] 1 2) (-1) 2 = pad [97] 2) :=
  ⟨⟨by decide, by decide, by decide⟩,
    nextafter_strict_monotone_roundtrip.2.1 [97] 2 (by decide) (by decide)
      (by decide)⟩

/-- Counterexample to C5: the round trip fails for a byte string shorter
than `itemsize` (it returns the right-padded form, not x), and at the
finite, non-saturating float64 value 2^53 the +1 direction is not strictly
increasing — it returns 2^53 itself. -/
theorem nextafter_roundtrip_counterexample :
    nextafterStr (nextafterStr [97] 1 2) (-1) 2 = [97, 0] ∧
      nextafterStr (nextafterStr [97] 1 2) (-1) 2 ≠ [97] ∧
      nextafterF64 (2 ^ 53 : ℚ) 1 = (2 ^ 53 : ℚ) ∧
      ¬((2 ^ 53 : ℚ) < nextafterF64 (2 ^ 53 : ℚ) 1) ∧
      (2 ^ 53 : ℚ) < maxFloat := by
  refine ⟨by decide, by decide, nextafterF64_pow53, ?_, ?_⟩
  · rw [nextafterF64_pow53]
    exact lt_irrefl _
  · norm_num [maxFloat]

end PyTables
